import Mathlib

/-!
Verification development for the jrys fortune-poster plugin.

Shallow embedding of the plugin's core logic:
* the fortune-selection step of `FortunePainter.generate_image_sync` (painter.py),
* `FortunePainter.wrap_text` (painter.py),
* `ResourceManager._download_to_path` (resources.py),
* `ResourceManager.get_background_image` (resources.py),
* `ResourceManager._migrate_legacy_cache_dir` (resources.py),
* the fetch/inspect phase of `JrysPlugin.jrys` (main.py).

Python strings iterated character by character are modelled as `List Char`;
machine randomness is modelled by explicit real-valued draw streams (a seeded
`random.Random` is a deterministic function of its seed string); the filesystem
is modelled by explicit lists of entries / file operations.
-/

namespace Jrys

/-! Fortune selection: painter.py lines 127-181 (generate_image_sync). -/

/-- A fortune table: association list from score key to the number of entries
stored under that key (`jrys_data`; entry contents are irrelevant to selection). -/
abbrev Table := List (String × Nat)

/-- The active rate triple (`current_rates`, with the `.get` defaults resolved). -/
structure Rates where
  good : ℚ
  normal : ℚ
  bad : ℚ
deriving DecidableEq

/-- Python `s.startswith(pre)`: the characters of `pre` lead those of `s`. -/
def strStartsWith (s pre : String) : Bool :=
  pre.data.isPrefixOf s.data

/-- Line 137: `[k for k in jrys_data.keys() if not k.startswith("_")]`. -/
def validKeys (tbl : Table) : List String :=
  (tbl.map Prod.fst).filter (fun k => !(strStartsWith k ("_")))

/-- Accumulator loop for a run of decimal digits ('0'-'9' have code points 48-57). -/
def parseDigits : Nat → List Char → Option Nat
  | acc, [] => some acc
  | acc, c :: rest =>
    if c.isDigit then parseDigits (acc * 10 + (c.toNat - 48)) rest else none

/-- Python `int(k)` on a fortune key, modelled for canonical decimal strings:
an optional leading minus sign followed by at least one digit; anything else
raises `ValueError` (`none`). -/
def pyInt (k : String) : Option Int :=
  match k.data with
  | [] => none
  | c :: rest =>
    if c = '-' then
      match rest with
      | [] => none
      | _ => (parseDigits 0 rest).map (fun n => -(n : Int))
    else (parseDigits 0 (c :: rest)).map (fun n => (n : Int))

/-- Parse every key; `none` models the `ValueError` raised by `int(k)` (which the
surrounding `except` turns into a `None` return). -/
def parseKeys : List String → Option (List (String × Int))
  | [] => some []
  | k :: ks =>
    match pyInt k, parseKeys ks with
    | some v, some rest => some ((k, v) :: rest)
    | _, _ => none

/-- Line 149: `good_keys = [k for k in valid_keys_list if int(k) > 70]` (count). -/
def goodCount (kvs : List (String × Int)) : Nat :=
  (kvs.filter (fun kv => decide (70 < kv.2))).length

/-- Line 150: `normal_keys = [k for k in valid_keys_list if 56 <= int(k) <= 70]` (count). -/
def normalCount (kvs : List (String × Int)) : Nat :=
  (kvs.filter (fun kv => decide (56 ≤ kv.2 ∧ kv.2 ≤ 70))).length

/-- Line 151: `bad_keys = [k for k in valid_keys_list if int(k) < 56]` (count). -/
def badCount (kvs : List (String × Int)) : Nat :=
  (kvs.filter (fun kv => decide (kv.2 < 56))).length

/-- Lines 155-166: the weight attached to one key of value `v`:
rate of its category divided by `max(len(category), 1)`. -/
def keyWeight (rates : Rates) (kvs : List (String × Int)) (v : Int) : ℚ :=
  if 70 < v then rates.good / (max (goodCount kvs) 1 : ℕ)
  else if 56 ≤ v then rates.normal / (max (normalCount kvs) 1 : ℕ)
  else rates.bad / (max (badCount kvs) 1 : ℕ)

/-- Lines 154-166: the `weights` list, one entry per valid key, in key order. -/
def rawWeights (rates : Rates) (kvs : List (String × Int)) : List ℚ :=
  kvs.map (fun kv => keyWeight rates kvs kv.2)

/-- Lines 169-170: `if sum(weights) <= 0: weights = [1] * len(valid_keys_list)`. -/
def finalWeights (rates : Rates) (kvs : List (String × Int)) : List ℚ :=
  if (rawWeights rates kvs).sum ≤ 0 then List.replicate kvs.length (1 : ℚ)
  else rawWeights rates kvs

/-- Cumulative weights, as built by `random.Random.choices` via `accumulate`. -/
def cumWeights : List ℚ → List ℚ
  | [] => []
  | w :: ws => w :: (cumWeights ws).map (fun x => w + x)

/-- Model of `rng.choices(pop, weights=ws, k=1)[0]` where `r` is the value the
generator returns for `random()` (a number in `[0,1)`).  CPython computes the
cumulative weights, raises on an empty population, a length mismatch or a
non-positive total (modelled as `none`, which the caller's `except` turns into a
`None` return), and otherwise bisects `cum_weights[0:n-1]` at `r * total`. -/
def choicesPick (pop : List String) (ws : List ℚ) (r : ℚ) : Option String :=
  if pop.length = 0 ∨ ws.length ≠ pop.length ∨ ws.sum ≤ 0 then none
  else
    pop[min (((cumWeights ws).take (pop.length - 1)).countP
      (fun c => decide (c ≤ r * ws.sum))) (pop.length - 1)]?

/-- Lines 137-174: build the valid key list and weights and draw `key_1`.
`r1` is the generator's `random()` output used by `choices`. -/
def drawKey (rates : Rates) (tbl : Table) (r1 : ℚ) : Option String :=
  match parseKeys (validKeys tbl) with
  | none => none
  | some kvs => choicesPick (validKeys tbl) (finalWeights rates kvs) r1

/-- Dict lookup `jrys_data[key_1]` / membership test `key_1 in jrys_data`. -/
def lookupTable (tbl : Table) (k : String) : Option Nat :=
  (tbl.find? (fun e => e.1 == k)).map Prod.snd

/-- Model of `rng.choice(list(range(n)))` given the generator's draw `r` in
`[0,1)`; raises `IndexError` on an empty sequence (modelled as `none`). -/
def choiceIdx (n : Nat) (r : ℚ) : Option Nat :=
  if n = 0 then none else some (min (Int.toNat ⌊r * (n : ℚ)⌋) (n - 1))

/-- Lines 137-181: the whole selection step: draw `key_1` by weighted choice,
take the defensive `key_1 not in jrys_data` branch if the key is absent, then
draw `key_2` uniformly among that key's entries.  Returns the chosen key and
entry index. -/
def selectFortune (rates : Rates) (tbl : Table) (r1 r2 : ℚ) : Option (String × Nat) :=
  match drawKey rates tbl r1 with
  | none => none
  | some k1 =>
    match lookupTable tbl k1 with
    | none => none
    | some n =>
      match choiceIdx n r2 with
      | none => none
      | some k2 => some (k1, k2)

/-- Line 132: the seed string `f"\x7buser_id\x7d-\x7btoday_str\x7d"`. -/
def fortuneSeed (userId today : String) : String :=
  userId ++ "-" ++ today

/-- Lines 127-135 plus the selection step: when `fixedDailyFortune` is enabled the
private generator is seeded with `fortuneSeed userId today`; `stream s n` is the
`n`-th draw of a generator seeded with `s` (a seeded `random.Random` is a pure
function of its seed), and `glob n` is the `n`-th draw of the process-wide
unseeded generator used when the option is disabled. -/
def selectStep (stream : String → Nat → ℚ) (glob : Nat → ℚ)
    (fixedDailyFortune : Bool) (userId today : String)
    (rates : Rates) (tbl : Table) : Option (String × Nat) :=
  let draw : Nat → ℚ := if fixedDailyFortune then stream (fortuneSeed userId today) else glob
  selectFortune rates tbl (draw 0) (draw 1)

/-! Word wrapping: painter.py lines 484-523 (wrap_text).  The text is the list of
its characters; `w` measures the pixel width of a candidate line
(`draw.textbbox`). -/

/-- The loop of `wrap_text`: `cur` is `current_line`, the second argument the
characters still to process.  A trailing non-empty `current_line` is appended. -/
def wrapAux (w : List Char → Nat) (maxW : Nat) : List Char → List Char → List (List Char)
  | cur, [] => if cur = [] then [] else [cur]
  | cur, c :: rest =>
    if w (cur ++ [c]) ≤ maxW then wrapAux w maxW (cur ++ [c]) rest
    else cur :: wrapAux w maxW [c] rest

/-- `wrap_text(text, font, draw, max_width)`: greedy character-level wrap. -/
def wrapText (w : List Char → Nat) (text : List Char) (maxW : Nat) : List (List Char) :=
  wrapAux w maxW [] text

/-! Downloader: resources.py lines 386-483 (`_download_to_path`).  One attempt is
described by the event the `try` block runs into; retries, sleeps and the
temp-file operations of the `finally` block are made explicit. -/

/-- The four exception classes handled identically by the dedicated handlers:
`asyncio.TimeoutError`, `aiohttp.ClientPayloadError`, `aiohttp.ClientError`,
and the generic `Exception` fallback. -/
inductive ErrKind
  | timeout
  | payload
  | client
  | other
deriving DecidableEq

/-- What one attempt of the download loop runs into:
* `resp code` — a response with the given HTTP status was received (when the
  status is 2xx, the body write and the atomic rename both succeed; a failure
  while writing or renaming is an `err` instead),
* `err k tmpMade` — one of the handled exceptions, with `tmpMade` recording
  whether the attempt's temp file had already been created when it was raised,
* `cancel tmpMade` — `asyncio.CancelledError`, re-raised. -/
inductive Att
  | resp (code : Nat)
  | err (k : ErrKind) (tmpMade : Bool)
  | cancel (tmpMade : Bool)

/-- How `_download_to_path` finishes. -/
inductive DLOut
  | success
  | failure
  | cancelled
deriving DecidableEq

/-- Filesystem operations the download loop performs on its temp files; the
attempt index identifies the fresh `uuid4` temp name of that attempt. -/
inductive FileOp
  | createTmp (attempt : Nat)
  | renameTmpToDest (attempt : Nat)
  | unlinkTmpIfExists (attempt : Nat)
deriving DecidableEq

/-- Result of the download loop: outcome, number of attempts actually made,
the `asyncio.sleep` durations executed (in seconds), and the temp-file
operations in execution order. -/
structure DLRes where
  out : DLOut
  attempts : Nat
  sleeps : List ℚ
  ops : List FileOp
deriving DecidableEq

/-- One iteration `attempt = a` of `for attempt in range(retries + 1)` and the
rest of the loop; `fuel` is the number of iterations remaining (kept equal to
`retries + 1 - a` by the caller).  Mirrors resources.py lines 392-483:
* 2xx: create the temp file, stream the body, `os.replace` onto `dest`,
  return `True` (the `finally` unlink is then a no-op on the renamed-away tmp);
* 5xx with attempts remaining: log and `continue` (no sleep);
* any other non-2xx status: return `False` immediately;
* handled exception with attempts remaining: `await asyncio.sleep(0.2 * (attempt + 1))`
  then `continue`;
* handled exception on the last attempt: fall through and return `False`;
* cancellation: re-raise.
In every case the `finally` block removes the attempt's temp file if it exists. -/
def dlGo (outs : Nat → Att) (retries : Nat) : Nat → Nat → DLRes
  | _, 0 => ⟨.failure, 0, [], []⟩
  | a, fuel + 1 =>
    match outs a with
    | .resp code =>
      if 200 ≤ code ∧ code < 300 then
        ⟨.success, 1, [], [.createTmp a, .renameTmpToDest a, .unlinkTmpIfExists a]⟩
      else if 500 ≤ code ∧ code ≤ 599 ∧ a < retries then
        let r := dlGo outs retries (a + 1) fuel
        ⟨r.out, r.attempts + 1, r.sleeps, .unlinkTmpIfExists a :: r.ops⟩
      else
        ⟨.failure, 1, [], [.unlinkTmpIfExists a]⟩
    | .err _ tmpMade =>
      let mk := if tmpMade then [FileOp.createTmp a] else []
      if a < retries then
        let r := dlGo outs retries (a + 1) fuel
        ⟨r.out, r.attempts + 1, (1 / 5 : ℚ) * ((a : ℚ) + 1) :: r.sleeps,
          mk ++ .unlinkTmpIfExists a :: r.ops⟩
      else
        ⟨.failure, 1, [], mk ++ [.unlinkTmpIfExists a]⟩
    | .cancel tmpMade =>
      let mk := if tmpMade then [FileOp.createTmp a] else []
      ⟨.cancelled, 1, [], mk ++ [.unlinkTmpIfExists a]⟩

/-- `_download_to_path(url, dest, label, retries)` as a whole: run the loop from
attempt 0 with `retries + 1` iterations available. -/
def downloadToPath (outs : Nat → Att) (retries : Nat) : DLRes :=
  dlGo outs retries 0 (retries + 1)

/-- Effect of one temp-file operation on the list of live temp files. -/
def applyOp (live : List Nat) : FileOp → List Nat
  | .createTmp a => a :: live
  | .renameTmpToDest a => live.erase a
  | .unlinkTmpIfExists a => live.erase a

/-- The temp files still existing after a sequence of operations. -/
def tmpLeft (ops : List FileOp) : List Nat :=
  ops.foldl applyOp []

/-- The attempts whose temp file was actually created, in creation order. -/
def createdIdx (ops : List FileOp) : List Nat :=
  ops.filterMap (fun o => match o with | .createTmp a => some a | _ => none)

/-- The 503-then-200 trace of spec §8: first attempt gets HTTP 503, every later
attempt gets HTTP 200. -/
def tr503 : Nat → Att :=
  fun n => if n = 0 then .resp 503 else .resp 200

/-! Request orchestration: main.py lines 94-132 (the fetch/inspect phase of
`JrysPlugin.jrys`).  `asyncio.gather(..., return_exceptions=True)` delivers both
results; an `Except.error` models a gathered exception, `Option` the `None`
results of the two fetchers. -/

/-- What the fetch phase decides: abort with an error message (recording whether
the background file was deleted on the way out), or proceed to render with the
collected avatar value, background path, and cleanup flag. -/
inductive FetchPhase
  | abort (deletedBg : Bool)
  | render (avatar : Option String) (bg : String) (cleanup : Bool)
deriving DecidableEq

/-- Lines 99-132: inspect the gathered results.  A background exception or
`None` aborts; an avatar exception aborts and deletes the background file when
its cleanup flag is set and its path is truthy (the file was just written, so
`os.path.exists` holds); otherwise rendering proceeds — note the code never
tests `avatar_path is None`. -/
def jrysFetch (avatarRes : Except Unit (Option String))
    (bgRes : Except Unit (Option (String × Bool))) : FetchPhase :=
  match bgRes with
  | .error _ => .abort false
  | .ok none => .abort false
  | .ok (some (bgPath, shouldCleanup)) =>
    match avatarRes with
    | .error _ => .abort (shouldCleanup && !(bgPath == ""))
    | .ok av => .render av bgPath shouldCleanup

/-! Legacy cache migration: resources.py lines 189-255
(`_migrate_legacy_cache_dir`).  A directory is a list of entries; `fails n`
says whether the move/replace of the entry named `n` raises (the per-file
`except` path). -/

/-- A directory entry: name, whether it is a regular file, its mtime, and an
abstract content tag. -/
structure Ent where
  name : String
  isFile : Bool
  mtime : Int
  content : Nat
deriving DecidableEq

/-- `dest.exists()` plus `dest.stat()`: the first entry with the given name. -/
def findEnt : List Ent → String → Option Ent
  | [], _ => none
  | e :: rest, n => if e.name = n then some e else findEnt rest n

/-- `os.replace(item, dest)` onto an existing destination name: the destination
path now designates the source's file (its kind, mtime and content), the
source entry disappearing from its directory. -/
def replaceEnt : List Ent → Ent → List Ent
  | [], _ => []
  | d :: rest, f =>
    (if d.name = f.name then (⟨d.name, f.isFile, f.mtime, f.content⟩ : Ent) else d) ::
      replaceEnt rest f

/-- The body of `for item in legacy_dir.iterdir()` for one entry, returning the
entry left behind in the source directory (if any) and the new destination
directory.  Non-files are skipped; an existing destination of equal or newer
mtime wins (`item.unlink`); otherwise `os.replace` moves the source over
(`shutil.copy2` + `unlink` across volumes has the same end state); a raising
move leaves both sides as they were (logged, loop continues). -/
def migrateStep (fails : String → Bool) (dest : List Ent) (f : Ent) : Option Ent × List Ent :=
  if !f.isFile then (some f, dest)
  else
    match findEnt dest f.name with
    | some d =>
      if f.mtime ≤ d.mtime then (none, dest)
      else if fails f.name then (some f, dest)
      else (none, replaceEnt dest f)
    | none =>
      if fails f.name then (some f, dest)
      else (none, dest ++ [f])

/-- The migration loop over the source directory listing. -/
def migrateGo (fails : String → Bool) : List Ent → List Ent → List Ent × List Ent
  | [], dest => ([], dest)
  | f :: rest, dest =>
    let s := migrateStep fails dest f
    let r := migrateGo fails rest s.2
    (s.1.toList ++ r.1, r.2)

/-- `_migrate_legacy_cache_dir(legacy_dir, target_dir, label)`: migrate every
entry, then remove the source directory iff nothing is left in it
(lines 242-246).  Returns (remaining source entries, destination entries,
whether the source directory was removed). -/
def migrateLegacyCacheDir (fails : String → Bool) (src dest : List Ent) :
    List Ent × List Ent × Bool :=
  let r := migrateGo fails src dest
  (r.1, r.2, decide (r.1 = []))

/-! Background acquisition: resources.py lines 96-137, the per-candidate loop of
`get_background_image`.  The shuffled URL list is an input; `cached u` is
`cache_path.exists()` for the permanent cache path of `u`, and `dlOk u p` is the
outcome of `_download_to_path(u, p)`. -/

/-- A download target: the permanent content-hash cache path of a URL, or a
fresh `uuid4` temp path allocated for it. -/
inductive BgPath
  | cache (url : String)
  | tmp (url : String)
deriving DecidableEq

/-- Lines 108-111: only `http://` / `https://` candidates are considered. -/
def isHttp (u : String) : Bool :=
  strStartsWith u ("http://") || strStartsWith u ("https://")

/-- Environment of one `get_background_image` call. -/
structure BgEnv where
  cached : String → Bool
  dlOk : String → BgPath → Bool
  preCache : Bool
  cleanupDownloads : Bool

/-- Lines 120-125: the download target and cleanup flag for a cache miss:
the ephemeral temp path with `should_cleanup=True` iff pre-caching is disabled
and cleanup-on-use is enabled, else the permanent cache path. -/
def bgTarget (env : BgEnv) (u : String) : BgPath × Bool :=
  if !env.preCache && env.cleanupDownloads then (.tmp u, true) else (.cache u, false)

/-- Lines 107-133: the candidate loop.  Returns the result (`none` models
falling through to the final `return None`) and the list of downloads actually
attempted, in order. -/
def bgLoop (env : BgEnv) : List String → Option (BgPath × Bool) × List (String × BgPath)
  | [] => (none, [])
  | u :: rest =>
    if !(isHttp u) then bgLoop env rest
    else if env.cached u then (some (.cache u, false), [])
    else
      let t := bgTarget env u
      if env.dlOk u t.1 then (some t, [(u, t.1)])
      else
        let r := bgLoop env rest
        (r.1, (u, t.1) :: r.2)

/-- `get_background_image` from the point where the shuffled URL list is fixed:
try the first `max_attempts = min(5, len(urls))` candidates. -/
def getBackgroundImage (env : BgEnv) (urls : List String) :
    Option (BgPath × Bool) × List (String × BgPath) :=
  bgLoop env (urls.take (min 5 urls.length))

/-! Theorems. -/

theorem string_append_left_cancel {a b c : String} (h : a ++ b = a ++ c) : b = c := by
  have h2 := congrArg String.data h
  simp only [String.data_append] at h2
  exact String.ext (List.append_cancel_left h2)

theorem parseKeys_length {ks : List String} {kvs : List (String × Int)}
    (h : parseKeys ks = some kvs) : kvs.length = ks.length := by
  induction ks generalizing kvs with
  | nil => simp [parseKeys] at h; simp [← h]
  | cons k rest ih =>
    simp only [parseKeys] at h
    cases hv : pyInt k with
    | none => rw [hv] at h; simp at h
    | some v =>
      rw [hv] at h
      cases hr : parseKeys rest with
      | none => rw [hr] at h; simp at h
      | some kvrest =>
        rw [hr] at h
        simp only [Option.some_inj] at h
        subst h
        simp [ih hr]

theorem choicesPick_isSome_mem {pop : List String} {ws : List ℚ} (r : ℚ)
    (hpop : pop ≠ []) (hlen : ws.length = pop.length) (hsum : ¬ ws.sum ≤ 0) :
    ∃ k, choicesPick pop ws r = some k ∧ k ∈ pop := by
  have hlen0 : pop.length ≠ 0 := (List.length_pos.mpr hpop).ne'
  have hcond : ¬ (pop.length = 0 ∨ ws.length ≠ pop.length ∨ ws.sum ≤ 0) := by
    push_neg
    exact ⟨hlen0, hlen, lt_of_not_le hsum⟩
  rw [choicesPick, if_neg hcond]
  have hidx : min (((cumWeights ws).take (pop.length - 1)).countP
      (fun c => decide (c ≤ r * ws.sum))) (pop.length - 1) < pop.length := by
    have := min_le_right (((cumWeights ws).take (pop.length - 1)).countP
      (fun c => decide (c ≤ r * ws.sum))) (pop.length - 1)
    omega
  exact ⟨_, List.getElem?_eq_getElem hidx, List.getElem_mem hidx⟩

theorem finalWeights_length (rates : Rates) (kvs : List (String × Int)) :
    (finalWeights rates kvs).length = kvs.length := by
  unfold finalWeights
  split
  · simp
  · simp [rawWeights]

theorem finalWeights_sum_pos (rates : Rates) (kvs : List (String × Int))
    (h : kvs ≠ []) : ¬ (finalWeights rates kvs).sum ≤ 0 := by
  unfold finalWeights
  split
  · have hpos : 0 < kvs.length := List.length_pos.mpr h
    simp only [List.sum_replicate, nsmul_eq_mul, mul_one]
    push_neg
    exact_mod_cast hpos
  · assumption

theorem drawKey_some {tbl : Table} {kvs : List (String × Int)} (rates : Rates) (r : ℚ)
    (hp : parseKeys (validKeys tbl) = some kvs) (hne : validKeys tbl ≠ []) :
    ∃ k, drawKey rates tbl r = some k ∧ k ∈ validKeys tbl := by
  have hkvs : kvs ≠ [] := by
    intro hnil
    apply hne
    have := parseKeys_length hp
    rw [hnil] at this
    simpa using (List.length_eq_zero.mp this.symm)
  unfold drawKey
  rw [hp]
  exact choicesPick_isSome_mem r hne
    ((finalWeights_length rates kvs).trans (parseKeys_length hp))
    (finalWeights_sum_pos rates kvs hkvs)

theorem mem_validKeys_lookup {tbl : Table} {k : String} (h : k ∈ validKeys tbl) :
    (lookupTable tbl k).isSome := by
  unfold validKeys at h
  have hmap : k ∈ tbl.map Prod.fst := (List.mem_filter.mp h).1
  obtain ⟨e, he, hek⟩ := List.mem_map.mp hmap
  have hs : (tbl.find? (fun e => e.1 == k)).isSome :=
    List.find?_isSome.mpr ⟨e, he, by simp [hek]⟩
  unfold lookupTable
  cases hf : tbl.find? (fun e => e.1 == k) with
  | none => rw [hf] at hs; simp at hs
  | some e2 => simp

/-- C1: with `fixed_daily_fortune` enabled, the fortune-selection step of
`generate_image_sync` is a function of the seed string `"<user_id>-<YYYY-MM-DD>"`
alone: two runs that may differ in the process-wide unseeded randomness choose
the identical key and entry index on the same table, and for the same user two
different dates produce different seeds. -/
theorem c1_fixed_daily_deterministic :
    ∀ (stream : String → Nat → ℚ) (glob1 glob2 : Nat → ℚ) (u d d2 : String)
      (rates : Rates) (tbl : Table),
      selectStep stream glob1 true u d rates tbl =
        selectStep stream glob2 true u d rates tbl ∧
      (d ≠ d2 → fortuneSeed u d ≠ fortuneSeed u d2) := by
  intro stream glob1 glob2 u d d2 rates tbl
  refine ⟨rfl, fun hne heq => hne ?_⟩
  simp only [fortuneSeed] at heq
  exact string_append_left_cancel heq

/-- Witness for C1: concrete user and two concrete dates. -/
theorem c1_witness :
    fortuneSeed ("u1") ("2024-01-01") ≠ fortuneSeed ("u1") ("2024-01-02") :=
  (c1_fixed_daily_deterministic (fun _ _ => 0) (fun _ => 0) (fun _ => 0)
    ("u1") ("2024-01-01") ("2024-01-02") ⟨40, 40, 20⟩ []).2 (by decide)

/-- C2: on a table with at least one non-metadata key, if all three configured
rate percentages are 0 the selection still succeeds: every per-category divisor
is floored at 1, the computed weight sum is ≤ 0, the weights are replaced by a
uniform weight of 1 per key, and a key is drawn rather than `None` returned. -/
theorem c2_zero_rates_uniform_fallback :
    ∀ (tbl : Table) (kvs : List (String × Int)) (r : ℚ),
      parseKeys (validKeys tbl) = some kvs → validKeys tbl ≠ [] →
      (1 ≤ max (goodCount kvs) 1 ∧ 1 ≤ max (normalCount kvs) 1 ∧
        1 ≤ max (badCount kvs) 1) ∧
      (rawWeights ⟨0, 0, 0⟩ kvs).sum ≤ 0 ∧
      finalWeights ⟨0, 0, 0⟩ kvs = List.replicate kvs.length 1 ∧
      ∃ k, drawKey ⟨0, 0, 0⟩ tbl r = some k := by
  intro tbl kvs r hp hne
  have hsum : (rawWeights ⟨0, 0, 0⟩ kvs).sum ≤ 0 := by
    have hz : ∀ x ∈ rawWeights ⟨0, 0, 0⟩ kvs, x = 0 := by
      intro x hx
      simp only [rawWeights, List.mem_map] at hx
      obtain ⟨kv, _, rfl⟩ := hx
      unfold keyWeight
      split
      · simp
      · split <;> simp
    exact le_of_eq (List.sum_eq_zero hz)
  refine ⟨⟨le_max_right _ _, le_max_right _ _, le_max_right _ _⟩, hsum, ?_, ?_⟩
  · rw [finalWeights, if_pos hsum]
  · obtain ⟨k, hk, _⟩ := drawKey_some ⟨0, 0, 0⟩ r hp hne
    exact ⟨k, hk⟩

/-- Witness for C2: a one-key table with all rates zeroed. -/
theorem c2_witness :
    (rawWeights ⟨0, 0, 0⟩ [(("80"), 80)]).sum ≤ 0 ∧
    ∃ k, drawKey ⟨0, 0, 0⟩ [(("80"), 1)] (1 / 2) = some k := by
  have h := c2_zero_rates_uniform_fallback [(("80"), 1)] [(("80"), 80)] (1 / 2)
    (by decide) (by decide)
  exact ⟨h.2.1, h.2.2.2⟩

/-- C3: every key whose value is > 70 is weighted good, between 56 and 70
inclusive normal, < 56 bad; the three categories partition the keys; each key's
weight is the active rate percentage of its category divided by the category
size floored at 1; and for the one-key-per-category table under rates
good=40/normal=40/bad=20 the weights are exactly 40, 40 and 20. -/
theorem c3_classification_and_weights :
    ∀ (rates : Rates) (kvs : List (String × Int)),
      goodCount kvs + normalCount kvs + badCount kvs = kvs.length ∧
      (∀ (i : Nat) (kv : String × Int), kvs[i]? = some kv →
        (rawWeights rates kvs)[i]? = some (
          if 70 < kv.2 then rates.good / (max (goodCount kvs) 1 : ℕ)
          else if 56 ≤ kv.2 ∧ kv.2 ≤ 70 then rates.normal / (max (normalCount kvs) 1 : ℕ)
          else rates.bad / (max (badCount kvs) 1 : ℕ))) ∧
      parseKeys (validKeys [(("80"), 1), (("60"), 1), (("30"), 1)]) =
        some [(("80"), 80), (("60"), 60), (("30"), 30)] ∧
      finalWeights ⟨40, 40, 20⟩ [(("80"), 80), (("60"), 60), (("30"), 30)] =
        [40, 40, 20] := by
  intro rates kvs
  refine ⟨?_, ?_, by decide, by
    norm_num [finalWeights, rawWeights, keyWeight, goodCount, normalCount,
      badCount, List.filter]⟩
  · induction kvs with
    | nil => simp [goodCount, normalCount, badCount]
    | cons kv rest ih =>
      simp only [goodCount, normalCount, badCount, List.filter_cons] at ih ⊢
      by_cases h1 : 70 < kv.2
      · have h2 : ¬ (56 ≤ kv.2 ∧ kv.2 ≤ 70) := by omega
        have h3 : ¬ kv.2 < 56 := by omega
        simp [h1, h2, h3] at ih ⊢
        omega
      · by_cases h2 : 56 ≤ kv.2
        · have h4 : 56 ≤ kv.2 ∧ kv.2 ≤ 70 := by omega
          have h3 : ¬ kv.2 < 56 := by omega
          simp [h1, h4, h3] at ih ⊢
          omega
        · have h3 : kv.2 < 56 := by omega
          have h4 : ¬ (56 ≤ kv.2 ∧ kv.2 ≤ 70) := by omega
          simp [h1, h4, h3] at ih ⊢
          omega
  · intro i kv hkv
    have hmap : (rawWeights rates kvs)[i]? =
        (kvs[i]?).map (fun kv => keyWeight rates kvs kv.2) := by
      simp [rawWeights]
    rw [hmap, hkv]
    simp only [Option.map_some']
    congr 1
    unfold keyWeight
    by_cases h1 : 70 < kv.2
    · simp [h1]
    · by_cases h2 : 56 ≤ kv.2
      · have h4 : 56 ≤ kv.2 ∧ kv.2 ≤ 70 := by omega
        simp [h1, h2, h4]
      · have h4 : ¬ (56 ≤ kv.2 ∧ kv.2 ≤ 70) := by omega
        simp [h1, h2, h4]

/-- Witness for C3: the middle key of the concrete table gets the normal rate. -/
theorem c3_witness :
    (rawWeights ⟨40, 40, 20⟩ [(("80"), 80), (("60"), 60), (("30"), 30)])[1]? =
      some (if (70 : Int) < 60 then (40 : ℚ) / (max (goodCount [(("80"), 80), (("60"), 60), (("30"), 30)]) 1 : ℕ)
        else if (56 : Int) ≤ 60 ∧ (60 : Int) ≤ 70 then
          (40 : ℚ) / (max (normalCount [(("80"), 80), (("60"), 60), (("30"), 30)]) 1 : ℕ)
        else (20 : ℚ) / (max (badCount [(("80"), 80), (("60"), 60), (("30"), 30)]) 1 : ℕ)) :=
  (c3_classification_and_weights ⟨40, 40, 20⟩
    [(("80"), 80), (("60"), 60), (("30"), 30)]).2.1 1 (("60"), 60) (by decide)

/-- C10: whenever the table has at least one non-metadata key and all of them
parse as integers, the weights list has exactly one entry per non-metadata key
and the weighted draw returns a key that is present in the table, so the
defensive `key_1 not in jrys_data` branch is unreachable. -/
theorem c10_draw_in_table :
    ∀ (tbl : Table) (kvs : List (String × Int)) (rates : Rates) (r : ℚ),
      parseKeys (validKeys tbl) = some kvs → validKeys tbl ≠ [] →
      (finalWeights rates kvs).length = (validKeys tbl).length ∧
      ∃ k, drawKey rates tbl r = some k ∧ k ∈ validKeys tbl ∧
        (lookupTable tbl k).isSome := by
  intro tbl kvs rates r hp hne
  refine ⟨(finalWeights_length rates kvs).trans (parseKeys_length hp), ?_⟩
  obtain ⟨k, hk, hmem⟩ := drawKey_some rates r hp hne
  exact ⟨k, hk, hmem, mem_validKeys_lookup hmem⟩

/-- Witness for C10: drawing on a concrete two-key table. -/
theorem c10_witness :
    ∃ k, drawKey ⟨40, 40, 20⟩ [(("80"), 1), (("30"), 2)] (1 / 3) = some k ∧
      k ∈ validKeys [(("80"), 1), (("30"), 2)] ∧
      (lookupTable [(("80"), 1), (("30"), 2)] k).isSome :=
  (c10_draw_in_table [(("80"), 1), (("30"), 2)] [(("80"), 80), (("30"), 30)]
    ⟨40, 40, 20⟩ (1 / 3) (by decide) (by decide)).2

theorem wrapAux_flatten (w : List Char → Nat) (maxW : Nat) :
    ∀ (text cur : List Char), (wrapAux w maxW cur text).flatten = cur ++ text := by
  intro text
  induction text with
  | nil =>
    intro cur
    by_cases h : cur = [] <;> simp [wrapAux, h]
  | cons c rest ih =>
    intro cur
    simp only [wrapAux]
    split
    · rw [ih (cur ++ [c])]
      simp
    · simp [ih [c]]

theorem wrapAux_single (w : List Char → Nat) (maxW : Nat) :
    ∀ (text cur : List Char), cur ≠ [] → (∀ n, w (cur ++ text.take n) ≤ maxW) →
      wrapAux w maxW cur text = [cur ++ text] := by
  intro text
  induction text with
  | nil =>
    intro cur hc _
    simp [wrapAux, hc]
  | cons c rest ih =>
    intro cur hc hw
    have h1 : w (cur ++ [c]) ≤ maxW := by simpa using hw 1
    simp only [wrapAux, if_pos h1]
    rw [ih (cur ++ [c]) (by simp) (fun n => by simpa [List.append_assoc] using hw (n + 1))]
    simp

theorem wrapAux_mono_length (c0 m : Nat) (hc : 0 < c0) :
    ∀ (text cur : List Char), 0 < cur.length → cur.length ≤ m →
      (wrapAux (fun s => c0 * s.length) (c0 * m) cur text).length
        = 1 + (cur.length + text.length - 1) / m := by
  intro text
  induction text with
  | nil =>
    intro cur h1 h2
    have hne : cur ≠ [] := by
      intro h
      rw [h] at h1
      simp at h1
    have hdiv : (cur.length - 1) / m = 0 := Nat.div_eq_of_lt (by omega)
    simp [wrapAux, hne, hdiv]
  | cons ch rest ih =>
    intro cur h1 h2
    simp only [wrapAux]
    by_cases hfit : cur.length + 1 ≤ m
    · have hcond : c0 * (cur ++ [ch]).length ≤ c0 * m := by
        rw [List.length_append]
        exact (mul_le_mul_iff_of_pos_left hc).mpr (by simpa using hfit)
      rw [if_pos hcond, ih (cur ++ [ch]) (by simp) (by simpa using hfit)]
      have heq : (cur ++ [ch]).length + rest.length - 1 = cur.length + (rest.length + 1) - 1 := by
        simp only [List.length_append, List.length_singleton]
        omega
      rw [heq]
      simp only [List.length_cons]
    · have hcur : cur.length = m := by omega
      have hcond : ¬ (c0 * (cur ++ [ch]).length ≤ c0 * m) := by
        rw [List.length_append]
        intro hle
        have := (mul_le_mul_iff_of_pos_left hc).mp hle
        simp at this
        omega
      rw [if_neg hcond]
      simp only [List.length_cons]
      rw [ih [ch] (by simp) (by simp; omega)]
      simp only [List.length_singleton]
      have hx : 1 + rest.length - 1 = rest.length := by omega
      have hy : cur.length + (rest.length + 1) - 1 = rest.length + m := by omega
      rw [hx, hy, Nat.add_div_right rest.length (by omega)]
      omega

/-- C9 counterexample: the empty input string has measured width 0, never
exceeding the maximum, yet `wrap_text` returns no lines at all rather than
exactly one line equal to the input. -/
theorem c9_counterexample :
    (∀ n, (fun s : List Char => s.length) (([] : List Char).take n) ≤ 10) ∧
    wrapText (fun s : List Char => s.length) [] 10 = [] ∧
    (wrapText (fun s : List Char => s.length) [] 10).length ≠ 1 := by
  refine ⟨fun n => by simp, ?_, ?_⟩ <;> simp [wrapText, wrapAux]

/-- C9 (amended): word wrapping is greedy and character-level: every NONEMPTY
input string none of whose measured prefixes exceeds the maximum width wraps to
exactly one line equal to the input (the empty string wraps to zero lines); a
string of exactly double the maximum width under a monospaced measure wraps to
exactly two lines; and in all cases the concatenation of the returned lines is
the input string, with no character duplicated or dropped. -/
theorem c9_wrap_text_amended :
    ∀ (w : List Char → Nat) (maxW : Nat) (text : List Char),
      ((∀ n, w (text.take n) ≤ maxW) → text ≠ [] → wrapText w text maxW = [text]) ∧
      (wrapText w text maxW).flatten = text ∧
      (∀ (c0 m : Nat), 0 < c0 → 0 < m → text.length = 2 * m →
        (wrapText (fun s => c0 * s.length) text (c0 * m)).length = 2) := by
  intro w maxW text
  refine ⟨?_, by simpa using wrapAux_flatten w maxW text [], ?_⟩
  · intro hw hne
    match text, hne with
    | ch :: rest, _ =>
      unfold wrapText
      simp only [wrapAux]
      have h1 : w ([] ++ [ch]) ≤ maxW := by simpa using hw 1
      rw [if_pos h1]
      simpa using wrapAux_single w maxW rest [ch] (by simp)
        (fun n => by simpa using hw (n + 1))
  · intro c0 m hc hm hlen
    cases text with
    | nil =>
      simp at hlen
      omega
    | cons ch rest =>
      unfold wrapText
      simp only [wrapAux]
      have h1 : c0 * ([] ++ [ch] : List Char).length ≤ c0 * m := by
        simpa using (mul_le_mul_iff_of_pos_left hc).mpr hm
      rw [if_pos h1]
      have hrest : rest.length = 2 * m - 1 := by
        simp only [List.length_cons] at hlen
        omega
      rw [wrapAux_mono_length c0 m hc rest ([] ++ [ch]) (by simp) (by simpa using hm)]
      have hnum : ([] ++ [ch] : List Char).length + rest.length - 1 = (m - 1) + m := by
        simp [hrest]
        omega
      rw [hnum, Nat.add_div_right _ (by omega), Nat.div_eq_of_lt (by omega)]

/-- Witness for C9 (amended): a two-character string that fits wraps to one
line; a four-character string of exactly double a width-10 box under a
5-pixel-per-character monospaced measure wraps to exactly two lines. -/
theorem c9_witness :
    wrapText (fun s => s.length) ([Char.ofNat 97, Char.ofNat 98]) 10 =
      [[Char.ofNat 97, Char.ofNat 98]] ∧
    (wrapText (fun s => 5 * s.length)
      ([Char.ofNat 97, Char.ofNat 98, Char.ofNat 99, Char.ofNat 100]) (5 * 2)).length = 2 := by
  constructor
  · exact (c9_wrap_text_amended (fun s => s.length) 10 _).1
      (fun n => by simp [List.length_take]) (by simp)
  · exact (c9_wrap_text_amended (fun s => s.length) 10 _).2.2 5 2 (by omega) (by omega)
      (by simp)

theorem dlGo_attempts_le (outs : Nat → Att) (retries : Nat) :
    ∀ (fuel a : Nat), (dlGo outs retries a fuel).attempts ≤ fuel := by
  intro fuel
  induction fuel with
  | zero =>
    intro a
    simp [dlGo]
  | succ fuel ih =>
    intro a
    cases h : outs a with
    | resp code =>
      by_cases h1 : 200 ≤ code ∧ code < 300
      · simp [dlGo, h, h1]
      · by_cases h2 : 500 ≤ code ∧ code ≤ 599 ∧ a < retries
        · have := ih (a + 1)
          simp only [dlGo, h, if_neg h1, if_pos h2]
          omega
        · simp [dlGo, h, h1, h2]
    | err k tm =>
      by_cases h1 : a < retries
      · have := ih (a + 1)
        simp only [dlGo, h, if_pos h1]
        omega
      · cases tm <;> simp [dlGo, h, h1]
    | cancel tm =>
      cases tm <;> simp [dlGo, h]

theorem dlGo_tmpLeft (outs : Nat → Att) (retries : Nat) :
    ∀ (fuel a : Nat), tmpLeft (dlGo outs retries a fuel).ops = [] := by
  intro fuel
  induction fuel with
  | zero =>
    intro a
    simp [dlGo, tmpLeft]
  | succ fuel ih =>
    intro a
    cases h : outs a with
    | resp code =>
      by_cases h1 : 200 ≤ code ∧ code < 300
      · simp [dlGo, h, h1, tmpLeft, applyOp]
      · by_cases h2 : 500 ≤ code ∧ code ≤ 599 ∧ a < retries
        · have := ih (a + 1)
          simp only [tmpLeft] at this ⊢
          simp [dlGo, h, h1, h2, applyOp, this]
        · simp [dlGo, h, h1, h2, tmpLeft, applyOp]
    | err k tm =>
      by_cases h1 : a < retries
      · have := ih (a + 1)
        simp only [tmpLeft] at this ⊢
        cases tm <;> simp [dlGo, h, h1, applyOp, this]
      · cases tm <;> simp [dlGo, h, h1, tmpLeft, applyOp]
    | cancel tm =>
      cases tm <;> simp [dlGo, h, tmpLeft, applyOp]

theorem dlGo_createdIdx_bound (outs : Nat → Att) (retries : Nat) :
    ∀ (fuel a j : Nat), j ∈ createdIdx (dlGo outs retries a fuel).ops → a ≤ j := by
  intro fuel
  induction fuel with
  | zero =>
    intro a j hj
    simp [dlGo, createdIdx] at hj
  | succ fuel ih =>
    intro a j hj
    cases h : outs a with
    | resp code =>
      by_cases h1 : 200 ≤ code ∧ code < 300
      · simp [dlGo, h, h1, createdIdx] at hj
        omega
      · by_cases h2 : 500 ≤ code ∧ code ≤ 599 ∧ a < retries
        · simp only [dlGo, h, if_neg h1, if_pos h2, createdIdx,
            List.filterMap_cons] at hj
          have := ih (a + 1) j (by simpa [createdIdx] using hj)
          omega
        · simp [dlGo, h, h1, h2, createdIdx] at hj
    | err k tm =>
      by_cases h1 : a < retries
      · cases tm with
        | false =>
          simp only [dlGo, h, if_pos h1, createdIdx, Bool.false_eq_true, if_false,
            List.nil_append, List.filterMap_cons] at hj
          have := ih (a + 1) j (by simpa [createdIdx] using hj)
          omega
        | true =>
          simp only [dlGo, h, if_pos h1, createdIdx, if_true,
            List.cons_append, List.nil_append, List.filterMap_cons] at hj
          simp only [List.mem_cons] at hj
          rcases hj with rfl | hj
          · omega
          · have := ih (a + 1) j (by simpa [createdIdx] using hj)
            omega
      · cases tm with
        | false => simp [dlGo, h, h1, createdIdx] at hj
        | true =>
          simp [dlGo, h, h1, createdIdx] at hj
          omega
    | cancel tm =>
      cases tm with
      | false => simp [dlGo, h, createdIdx] at hj
      | true =>
        simp [dlGo, h, createdIdx] at hj
        omega

theorem dlGo_createdIdx_sorted (outs : Nat → Att) (retries : Nat) :
    ∀ (fuel a : Nat), (createdIdx (dlGo outs retries a fuel).ops).Pairwise (· < ·) := by
  intro fuel
  induction fuel with
  | zero =>
    intro a
    simp [dlGo, createdIdx]
  | succ fuel ih =>
    intro a
    cases h : outs a with
    | resp code =>
      by_cases h1 : 200 ≤ code ∧ code < 300
      · simp [dlGo, h, h1, createdIdx]
      · by_cases h2 : 500 ≤ code ∧ code ≤ 599 ∧ a < retries
        · simp only [dlGo, h, if_neg h1, if_pos h2, createdIdx, List.filterMap_cons]
          simpa [createdIdx] using ih (a + 1)
        · simp [dlGo, h, h1, h2, createdIdx]
    | err k tm =>
      by_cases h1 : a < retries
      · cases tm with
        | false =>
          simp only [dlGo, h, if_pos h1, createdIdx, Bool.false_eq_true, if_false,
            List.nil_append, List.filterMap_cons]
          simpa [createdIdx] using ih (a + 1)
        | true =>
          simp only [dlGo, h, if_pos h1, createdIdx, if_true,
            List.cons_append, List.nil_append, List.filterMap_cons]
          refine List.pairwise_cons.mpr ⟨?_, by simpa [createdIdx] using ih (a + 1)⟩
          intro j hj
          have := dlGo_createdIdx_bound outs retries fuel (a + 1) j
            (by simpa [createdIdx] using hj)
          omega
      · cases tm <;> simp [dlGo, h, h1, createdIdx]
    | cancel tm =>
      cases tm <;> simp [dlGo, h, createdIdx]

/-- C4 counterexample: with `retries = 1`, a first attempt answered HTTP 503 and
a second answered HTTP 200 make the download retry and succeed in two attempts
while executing NO backoff sleep at all — the claimed 0.2 s × attempt-number
backoff before the second attempt does not happen for 5xx statuses. -/
theorem c4_counterexample :
    (downloadToPath tr503 1).out = DLOut.success ∧
    (downloadToPath tr503 1).attempts = 2 ∧
    (downloadToPath tr503 1).sleeps = [] :=
  ⟨rfl, rfl, rfl⟩

/-- C4 (amended): the download makes at most `retries + 1` attempts; a 2xx
response succeeds immediately; a 5xx response with attempts remaining is
retried IMMEDIATELY, with no backoff sleep; any other non-2xx status returns
false at once; timeout/payload/client/other errors with attempts remaining are
retried after a linear backoff of 0.2 s × attempt number, and fail after the
last attempt; cancellation propagates immediately without retry or
suppression. -/
theorem c4_download_retry_amended :
    ∀ (outs : Nat → Att) (retries : Nat),
      (downloadToPath outs retries).attempts ≤ retries + 1 ∧
      (∀ (a fuel code : Nat), outs a = .resp code → 200 ≤ code → code < 300 →
        dlGo outs retries a (fuel + 1) =
          ⟨.success, 1, [], [.createTmp a, .renameTmpToDest a, .unlinkTmpIfExists a]⟩) ∧
      (∀ (a fuel code : Nat), outs a = .resp code → 500 ≤ code → code ≤ 599 →
        a < retries →
        dlGo outs retries a (fuel + 1) =
          ⟨(dlGo outs retries (a + 1) fuel).out,
           (dlGo outs retries (a + 1) fuel).attempts + 1,
           (dlGo outs retries (a + 1) fuel).sleeps,
           .unlinkTmpIfExists a :: (dlGo outs retries (a + 1) fuel).ops⟩) ∧
      (∀ (a fuel code : Nat), outs a = .resp code → code < 200 ∨ 300 ≤ code →
        ¬ (500 ≤ code ∧ code ≤ 599 ∧ a < retries) →
        dlGo outs retries a (fuel + 1) = ⟨.failure, 1, [], [.unlinkTmpIfExists a]⟩) ∧
      (∀ (a fuel : Nat) (k : ErrKind) (tm : Bool), outs a = .err k tm → a < retries →
        dlGo outs retries a (fuel + 1) =
          ⟨(dlGo outs retries (a + 1) fuel).out,
           (dlGo outs retries (a + 1) fuel).attempts + 1,
           (1 / 5 : ℚ) * ((a : ℚ) + 1) :: (dlGo outs retries (a + 1) fuel).sleeps,
           (if tm then [FileOp.createTmp a] else []) ++
             .unlinkTmpIfExists a :: (dlGo outs retries (a + 1) fuel).ops⟩) ∧
      (∀ (a fuel : Nat) (k : ErrKind) (tm : Bool), outs a = .err k tm → ¬ a < retries →
        dlGo outs retries a (fuel + 1) =
          ⟨.failure, 1, [],
            (if tm then [FileOp.createTmp a] else []) ++ [.unlinkTmpIfExists a]⟩) ∧
      (∀ (a fuel : Nat) (tm : Bool), outs a = .cancel tm →
        dlGo outs retries a (fuel + 1) =
          ⟨.cancelled, 1, [],
            (if tm then [FileOp.createTmp a] else []) ++ [.unlinkTmpIfExists a]⟩) := by
  intro outs retries
  refine ⟨dlGo_attempts_le outs retries (retries + 1) 0, ?_, ?_, ?_, ?_, ?_, ?_⟩
  · intro a fuel code h hc1 hc2
    simp only [dlGo, h, if_pos (And.intro hc1 hc2)]
  · intro a fuel code h h5 h6 hlt
    simp only [dlGo, h]
    rw [if_neg (by omega), if_pos ⟨h5, h6, hlt⟩]
  · intro a fuel code h hno hnr
    simp only [dlGo, h]
    rw [if_neg (by omega), if_neg hnr]
  · intro a fuel k tm h hlt
    simp only [dlGo, h, if_pos hlt]
  · intro a fuel k tm h hge
    simp only [dlGo, h, if_neg hge]
  · intro a fuel tm h
    simp only [dlGo, h]

/-- Witness for C4 (amended): the 503-then-200 trace takes the immediate-retry
branch on its first attempt. -/
theorem c4_witness :
    dlGo tr503 1 0 2 =
      ⟨(dlGo tr503 1 1 1).out, (dlGo tr503 1 1 1).attempts + 1,
       (dlGo tr503 1 1 1).sleeps, .unlinkTmpIfExists 0 :: (dlGo tr503 1 1 1).ops⟩ :=
  (c4_download_retry_amended tr503 1).2.2.1 0 1 503 rfl (by omega) (by omega) (by omega)

/-- C6: every attempt writes to a fresh temp file (the created temp names are
pairwise distinct) and whatever the outcome trace, no temp file survives the
return of the download — each attempt's temp file is either renamed onto the
destination or removed by the `finally` block; in particular the 503-then-200
retry succeeds in two attempts with no sleep, creating and renaming exactly the
second attempt's temp file and leaving nothing behind. -/
theorem c6_no_tmp_left :
    ∀ (outs : Nat → Att) (retries : Nat),
      tmpLeft (downloadToPath outs retries).ops = [] ∧
      (createdIdx (downloadToPath outs retries).ops).Nodup ∧
      downloadToPath tr503 1 =
        ⟨.success, 2, [], [.unlinkTmpIfExists 0, .createTmp 1, .renameTmpToDest 1,
          .unlinkTmpIfExists 1]⟩ := by
  intro outs retries
  refine ⟨dlGo_tmpLeft outs retries (retries + 1) 0, ?_, rfl⟩
  exact (dlGo_createdIdx_sorted outs retries (retries + 1) 0).imp Nat.ne_of_lt

/-- C5 counterexample: an avatar fetch that FAILS BY RETURNING `None` together
with a successful background fetch does not abort — the code only tests
`isinstance(avatar_path, Exception)`, never `avatar_path is None`, so rendering
is attempted with the failed avatar. -/
theorem c5_counterexample :
    jrysFetch (Except.ok none) (Except.ok (some (("bg.img"), false))) =
      FetchPhase.render none ("bg.img") false :=
  rfl

/-- C5 (amended): avatar and background results are gathered together and both
inspected before rendering; the render is not attempted when the background
fetch fails (returns null or raises) or when the avatar fetch RAISES — and in
the latter case an already-fetched background marked ephemeral is deleted from
disk before the failure return; an avatar fetch that merely returns null does
NOT abort: rendering proceeds without the avatar.  Rendering happens exactly
when the background fetch succeeded and the avatar fetch did not raise. -/
theorem c5_fetch_phase_amended :
    ∀ (av : Except Unit (Option String)) (bg : Except Unit (Option (String × Bool))),
      ((bg = .error () ∨ bg = .ok none ∨ av = .error ()) →
        ∃ d, jrysFetch av bg = .abort d) ∧
      (∀ (p : String), av = .error () → bg = .ok (some (p, true)) → p ≠ "" →
        jrysFetch av bg = .abort true) ∧
      (∀ (p : String) (c : Bool), bg = .error () ∨ bg = .ok none →
        jrysFetch av bg ≠ .render none p c ∧ jrysFetch av bg = .abort false) ∧
      (∀ (a2 : Option String) (p : String) (c : Bool),
        jrysFetch av bg = .render a2 p c → bg = .ok (some (p, c)) ∧ av = .ok a2) := by
  intro av bg
  refine ⟨?_, ?_, ?_, ?_⟩
  · intro h
    rcases h with rfl | rfl | rfl
    · exact ⟨false, rfl⟩
    · exact ⟨false, rfl⟩
    · cases bg with
      | error e => exact ⟨false, rfl⟩
      | ok ob =>
        cases ob with
        | none => exact ⟨false, rfl⟩
        | some pc => exact ⟨pc.2 && !(pc.1 == ""), rfl⟩
  · intro p hav hbg hp
    subst hav
    subst hbg
    simp [jrysFetch, hp]
  · intro p c h
    rcases h with rfl | rfl <;> exact ⟨by simp [jrysFetch], rfl⟩
  · intro a2 p c h
    cases bg with
    | error e => simp [jrysFetch] at h
    | ok ob =>
      cases ob with
      | none => simp [jrysFetch] at h
      | some pc =>
        cases av with
        | error e => simp [jrysFetch] at h
        | ok a3 =>
          simp only [jrysFetch, FetchPhase.render.injEq] at h
          obtain ⟨h1, h2, h3⟩ := h
          subst h1
          subst h2
          subst h3
          exact ⟨by rfl, rfl⟩

/-- Witness for C5 (amended): an avatar exception after a successful ephemeral
background fetch aborts and deletes the background file. -/
theorem c5_witness :
    jrysFetch (Except.error ()) (Except.ok (some (("bg.img"), true))) =
      FetchPhase.abort true :=
  (c5_fetch_phase_amended (Except.error ()) (Except.ok (some (("bg.img"), true)))).2.1
    ("bg.img") rfl rfl (by decide)

theorem bgLoop_none (env : BgEnv) :
    ∀ (l : List String), (∀ v ∈ l, isHttp v = false ∨ (env.cached v = false ∧
        env.dlOk v (bgTarget env v).1 = false)) → (bgLoop env l).1 = none := by
  intro l
  induction l with
  | nil =>
    intro _
    simp [bgLoop]
  | cons u rest ih =>
    intro h
    have hu := h u (by simp)
    have hrest : ∀ v ∈ rest, isHttp v = false ∨ (env.cached v = false ∧
        env.dlOk v (bgTarget env v).1 = false) :=
      fun v hv => h v (List.mem_cons_of_mem u hv)
    rcases hu with hu | ⟨hc, hd⟩
    · simp [bgLoop, hu, ih hrest]
    · cases hh : isHttp u <;> simp [bgLoop, hh, hc, hd, ih hrest]

/-- C7: for every candidate URL considered by `get_background_image`: a
permanent-cache hit returns that path with `should_cleanup=false` and no
download; on a miss the target is the fresh ephemeral temp path with
`should_cleanup=true` exactly when pre-caching is disabled and cleanup-on-use
is enabled, and the permanent cache path with `should_cleanup=false`
otherwise; the call returns on the first successful download; a failed
download moves on to the next candidate; and if every attempted URL fails the
call returns `None`. -/
theorem c7_background_image_policy :
    ∀ (env : BgEnv) (urls : List String) (u : String) (rest : List String),
      (isHttp u = true → env.cached u = true →
        bgLoop env (u :: rest) = (some (.cache u, false), [])) ∧
      (isHttp u = true → env.cached u = false →
        env.dlOk u (bgTarget env u).1 = true →
        bgLoop env (u :: rest) = (some (bgTarget env u), [(u, (bgTarget env u).1)])) ∧
      (isHttp u = true → env.cached u = false →
        env.dlOk u (bgTarget env u).1 = false →
        bgLoop env (u :: rest) =
          ((bgLoop env rest).1, (u, (bgTarget env u).1) :: (bgLoop env rest).2)) ∧
      (env.preCache = false → env.cleanupDownloads = true →
        bgTarget env u = (.tmp u, true)) ∧
      (env.preCache = true ∨ env.cleanupDownloads = false →
        bgTarget env u = (.cache u, false)) ∧
      ((∀ v ∈ urls, isHttp v = false ∨ (env.cached v = false ∧
          env.dlOk v (bgTarget env v).1 = false)) →
        (getBackgroundImage env urls).1 = none) := by
  intro env urls u rest
  refine ⟨?_, ?_, ?_, ?_, ?_, ?_⟩
  · intro hh hc
    simp [bgLoop, hh, hc]
  · intro hh hc hd
    simp [bgLoop, hh, hc, hd]
  · intro hh hc hd
    simp [bgLoop, hh, hc, hd]
  · intro h1 h2
    simp [bgTarget, h1, h2]
  · intro h
    rcases h with h | h <;> simp [bgTarget, h]
  · intro h
    exact bgLoop_none env _ (fun v hv => h v (List.take_subset _ _ hv))

/-- Witness for C7: a cache hit on a concrete candidate returns the permanent
cache path without downloading. -/
theorem c7_witness :
    bgLoop ⟨fun _ => true, fun _ _ => true, false, true⟩ [("http://a/x.jpg")] =
      (some (.cache ("http://a/x.jpg"), false), []) :=
  (c7_background_image_policy ⟨fun _ => true, fun _ _ => true, false, true⟩ []
    ("http://a/x.jpg") []).1 (by decide) rfl

theorem migrateStep_fst {fails : String → Bool} {dest : List Ent} {f x : Ent}
    (h : (migrateStep fails dest f).1 = some x) : x = f := by
  unfold migrateStep at h
  split at h
  · exact (Option.some_inj.mp h).symm
  · split at h
    next d hf =>
      split at h
      · exact Option.noConfusion h
      · split at h
        · exact (Option.some_inj.mp h).symm
        · exact Option.noConfusion h
    next hf =>
      split at h
      · exact (Option.some_inj.mp h).symm
      · exact Option.noConfusion h

theorem findEnt_replaceEnt_other {dest : List Ent} {f : Ent} {n : String}
    (hne : n ≠ f.name) : findEnt (replaceEnt dest f) n = findEnt dest n := by
  induction dest with
  | nil => rfl
  | cons d rest ih =>
    have h3 : f.name ≠ n := fun h => hne h.symm
    by_cases hd : d.name = f.name
    · simp [replaceEnt, findEnt, hd, h3, ih]
    · by_cases h2 : d.name = n
      · simp [replaceEnt, findEnt, hd, h2, hne]
      · simp [replaceEnt, findEnt, hd, h2, ih]

theorem findEnt_replaceEnt_self {dest : List Ent} {f d : Ent}
    (h : findEnt dest f.name = some d) :
    findEnt (replaceEnt dest f) f.name = some ⟨d.name, f.isFile, f.mtime, f.content⟩ := by
  induction dest with
  | nil => exact Option.noConfusion h
  | cons e rest ih =>
    by_cases he : e.name = f.name
    · simp only [findEnt, if_pos he, Option.some_inj] at h
      subst h
      simp [replaceEnt, findEnt, he]
    · simp only [findEnt, if_neg he] at h
      simp [replaceEnt, findEnt, he, ih h]

theorem findEnt_append_other {dest : List Ent} {e : Ent} {n : String}
    (hne : e.name ≠ n) :
    findEnt (dest ++ [e]) n = findEnt dest n := by
  induction dest with
  | nil => simp [findEnt, hne]
  | cons d rest ih =>
    by_cases hd : d.name = n <;> simp [findEnt, hd, ih]

theorem findEnt_append_self {dest : List Ent} {e : Ent}
    (h : findEnt dest e.name = none) :
    findEnt (dest ++ [e]) e.name = some e := by
  induction dest with
  | nil => simp [findEnt]
  | cons d rest ih =>
    by_cases hd : d.name = e.name
    · simp [findEnt, hd] at h
    · simp only [findEnt, if_neg hd] at h
      simp [findEnt, hd, ih h]

theorem migrateStep_find_other {fails : String → Bool} {dest : List Ent} {g : Ent}
    {n : String} (hne : g.name ≠ n) :
    findEnt (migrateStep fails dest g).2 n = findEnt dest n := by
  unfold migrateStep
  split
  · rfl
  · split
    next d hf =>
      split
      · rfl
      · split
        · rfl
        · exact findEnt_replaceEnt_other (fun he => hne he.symm)
    next hf =>
      split
      · rfl
      · exact findEnt_append_other hne

theorem migrateGo_find_other {fails : String → Bool} :
    ∀ {src : List Ent} {dest : List Ent} {n : String},
      (∀ g ∈ src, g.name ≠ n) →
      findEnt (migrateGo fails src dest).2 n = findEnt dest n := by
  intro src
  induction src with
  | nil =>
    intro dest n _
    simp [migrateGo]
  | cons g rest ih =>
    intro dest n h
    simp only [migrateGo]
    rw [ih (fun x hx => h x (List.mem_cons_of_mem g hx))]
    exact migrateStep_find_other (h g (by simp))

theorem migrateGo_fst_subset {fails : String → Bool} :
    ∀ {src : List Ent} {dest : List Ent} {x : Ent},
      x ∈ (migrateGo fails src dest).1 → x ∈ src := by
  intro src
  induction src with
  | nil =>
    intro dest x hx
    simp [migrateGo] at hx
  | cons g rest ih =>
    intro dest x hx
    simp only [migrateGo, List.mem_append] at hx
    rcases hx with hx | hx
    · cases hs : (migrateStep fails dest g).1 with
      | none => rw [hs] at hx; simp at hx
      | some y =>
        rw [hs] at hx
        simp only [Option.toList_some, List.mem_singleton] at hx
        subst hx
        rw [migrateStep_fst hs]
        simp
    · exact List.mem_cons_of_mem g (ih hx)

theorem findEnt_name {l : List Ent} {n : String} {d : Ent}
    (h : findEnt l n = some d) : d.name = n := by
  induction l with
  | nil => exact Option.noConfusion h
  | cons e rest ih =>
    by_cases he : e.name = n
    · simp only [findEnt, if_pos he, Option.some_inj] at h
      subst h
      exact he
    · simp only [findEnt, if_neg he] at h
      exact ih h

theorem migrateGo_cons_not_mem {fails : String → Bool} {g f : Ent}
    {rest dest : List Ent} (hne : f ≠ g)
    (hnr : f ∉ (migrateGo fails rest (migrateStep fails dest g).2).1) :
    f ∉ (migrateGo fails (g :: rest) dest).1 := by
  intro hmem
  simp only [migrateGo, List.mem_append] at hmem
  rcases hmem with hmem | hmem
  · cases hs : (migrateStep fails dest g).1 with
    | none =>
      rw [hs] at hmem
      simp at hmem
    | some y =>
      rw [hs] at hmem
      simp only [Option.toList_some, List.mem_singleton] at hmem
      exact hne (hmem.trans (migrateStep_fst hs))
  · exact hnr hmem

theorem migrateGo_disposition (fails : String → Bool) :
    ∀ (src dest : List Ent) (f : Ent),
      (src.map Ent.name).Nodup → f ∈ src → f.isFile = true →
      (∀ d, findEnt dest f.name = some d → f.mtime ≤ d.mtime →
        f ∉ (migrateGo fails src dest).1 ∧
        findEnt (migrateGo fails src dest).2 f.name = some d) ∧
      (∀ d, findEnt dest f.name = some d → d.mtime < f.mtime → fails f.name = false →
        f ∉ (migrateGo fails src dest).1 ∧
        findEnt (migrateGo fails src dest).2 f.name =
          some ⟨f.name, true, f.mtime, f.content⟩) ∧
      (findEnt dest f.name = none → fails f.name = false →
        f ∉ (migrateGo fails src dest).1 ∧
        findEnt (migrateGo fails src dest).2 f.name = some f) := by
  intro src
  induction src with
  | nil =>
    intro dest f _ hf _
    simp at hf
  | cons g rest ih =>
    intro dest f hnd hf hfile
    simp only [List.map_cons] at hnd
    have hnd2 := List.nodup_cons.mp hnd
    rcases List.mem_cons.mp hf with rfl | hfr
    · have hnotin : f ∉ rest := fun hr => hnd2.1 (List.mem_map_of_mem Ent.name hr)
      have hnames : ∀ x ∈ rest, x.name ≠ f.name := by
        intro x hx he
        exact hnd2.1 (he ▸ List.mem_map_of_mem Ent.name hx)
      refine ⟨?_, ?_, ?_⟩
      · intro d hfind hle
        have hstep : migrateStep fails dest f = (none, dest) := by
          simp [migrateStep, hfile, hfind, hle]
        constructor
        · intro hmem
          simp only [migrateGo, hstep, Option.toList_none, List.nil_append] at hmem
          exact hnotin (migrateGo_fst_subset hmem)
        · simp only [migrateGo, hstep]
          rw [migrateGo_find_other hnames]
          exact hfind
      · intro d hfind hlt hfl
        have hstep : migrateStep fails dest f = (none, replaceEnt dest f) := by
          simp [migrateStep, hfile, hfind, hfl, not_le.mpr hlt]
        constructor
        · intro hmem
          simp only [migrateGo, hstep, Option.toList_none, List.nil_append] at hmem
          exact hnotin (migrateGo_fst_subset hmem)
        · simp only [migrateGo, hstep]
          rw [migrateGo_find_other hnames]
          have hrepl := findEnt_replaceEnt_self hfind
          rw [findEnt_name hfind, hfile] at hrepl
          exact hrepl
      · intro hfind hfl
        have hstep : migrateStep fails dest f = (none, dest ++ [f]) := by
          simp [migrateStep, hfile, hfind, hfl]
        constructor
        · intro hmem
          simp only [migrateGo, hstep, Option.toList_none, List.nil_append] at hmem
          exact hnotin (migrateGo_fst_subset hmem)
        · simp only [migrateGo, hstep]
          rw [migrateGo_find_other hnames]
          exact findEnt_append_self hfind
    · have hgf : g.name ≠ f.name := by
        intro he
        exact hnd2.1 (he ▸ List.mem_map_of_mem Ent.name hfr)
      have hfe : f ≠ g := fun he => hgf (congrArg Ent.name he).symm
      have hfind_eq : findEnt (migrateStep fails dest g).2 f.name = findEnt dest f.name :=
        migrateStep_find_other hgf
      have IH := ih (migrateStep fails dest g).2 f hnd2.2 hfr hfile
      refine ⟨?_, ?_, ?_⟩
      · intro d hfind hle
        obtain ⟨h1, h2⟩ := IH.1 d (hfind_eq.trans hfind) hle
        exact ⟨migrateGo_cons_not_mem hfe h1, by simpa only [migrateGo] using h2⟩
      · intro d hfind hlt hfl
        obtain ⟨h1, h2⟩ := IH.2.1 d (hfind_eq.trans hfind) hlt hfl
        exact ⟨migrateGo_cons_not_mem hfe h1, by simpa only [migrateGo] using h2⟩
      · intro hfind hfl
        obtain ⟨h1, h2⟩ := IH.2.2 (hfind_eq.trans hfind) hfl
        exact ⟨migrateGo_cons_not_mem hfe h1, by simpa only [migrateGo] using h2⟩

/-- C8: for every regular file in the migrated legacy directory (directory
listings with distinct names): if a same-named destination entry exists and is
at least as new, the source file is discarded and the destination kept
unchanged (ties favor the destination); if the source is strictly newer and its
move does not fail, the destination now holds the source's kind, mtime and
content and the source file is gone; if no same-named destination exists and
the move does not fail, the file is moved to the destination; the source
directory itself is removed exactly when it ends up empty; and a per-file
failure never aborts migration of the remaining files — these dispositions hold
for each file under an arbitrary per-file failure oracle. -/
theorem c8_migrate_legacy :
    ∀ (fails : String → Bool) (src dest : List Ent) (f : Ent),
      (src.map Ent.name).Nodup → f ∈ src → f.isFile = true →
      (∀ d, findEnt dest f.name = some d → f.mtime ≤ d.mtime →
        f ∉ (migrateLegacyCacheDir fails src dest).1 ∧
        findEnt (migrateLegacyCacheDir fails src dest).2.1 f.name = some d) ∧
      (∀ d, findEnt dest f.name = some d → d.mtime < f.mtime → fails f.name = false →
        f ∉ (migrateLegacyCacheDir fails src dest).1 ∧
        findEnt (migrateLegacyCacheDir fails src dest).2.1 f.name =
          some ⟨f.name, true, f.mtime, f.content⟩) ∧
      (findEnt dest f.name = none → fails f.name = false →
        f ∉ (migrateLegacyCacheDir fails src dest).1 ∧
        findEnt (migrateLegacyCacheDir fails src dest).2.1 f.name = some f) ∧
      ((migrateLegacyCacheDir fails src dest).2.2 = true ↔
        (migrateLegacyCacheDir fails src dest).1 = []) := by
  intro fails src dest f hnd hf hfile
  have h := migrateGo_disposition fails src dest f hnd hf hfile
  refine ⟨h.1, h.2.1, h.2.2, ?_⟩
  simp [migrateLegacyCacheDir]

/-- Witness for C8: a source file older than the same-named destination file is
discarded and the destination survives unchanged. -/
theorem c8_witness :
    (⟨("a.jpg"), true, 5, 1⟩ : Ent) ∉
      (migrateLegacyCacheDir (fun _ => false)
        [⟨("a.jpg"), true, 5, 1⟩] [⟨("a.jpg"), true, 7, 2⟩]).1 ∧
    findEnt (migrateLegacyCacheDir (fun _ => false)
        [⟨("a.jpg"), true, 5, 1⟩] [⟨("a.jpg"), true, 7, 2⟩]).2.1 ("a.jpg") =
      some ⟨("a.jpg"), true, 7, 2⟩ :=
  (c8_migrate_legacy (fun _ => false) [⟨("a.jpg"), true, 5, 1⟩]
    [⟨("a.jpg"), true, 7, 2⟩] ⟨("a.jpg"), true, 5, 1⟩ (by simp) (by simp) rfl).1
    ⟨("a.jpg"), true, 7, 2⟩ (by simp [findEnt]) (by decide)

end Jrys
